import Mathlib

/-!
Verification of the AI_PROCTORING repository's invitation + exam-file
lifecycle and keyword-extraction pipeline, together with the exam-page
countdown logic of `frontend/src/pages/Exam.js`.

The backend components (File Store, Keyword Extractor, Invitation
Service) are not present in the source tree; they are modelled from the
specification (§4.1, §4.3, §4.4).  The exam-page definitions are
translated directly from `Exam.js`.
-/

namespace AIProctoring

/-! ## Keyword Extractor (modelled from the spec, §4.3) -/

/-- Modelled from the spec: the fixed stop-word set of the Keyword
Extractor (articles, pronouns, common prepositions/conjunctions); the
implementation is absent from the source tree, so the set is enumerated
following the spec's examples (it must contain "the", "a", "an", "is"). -/
def stopWords : List String :=
  ["the", "a", "an", "is", "are", "was", "were", "be", "been", "being",
   "and", "or", "but", "not", "of", "to", "in", "for", "on", "with",
   "at", "by", "from", "as", "it", "its", "he", "she", "they", "we",
   "you", "i", "his", "her", "their", "our", "your", "my", "this",
   "that", "these", "those", "will", "would", "can", "could", "has",
   "have", "had", "do", "does", "did"]

/-- ASCII alphanumeric test used for token boundaries. -/
def isAlnumChar (c : Char) : Bool := c.isAlpha || c.isDigit

/-- Split a lowercased character stream into maximal runs of
alphanumeric characters; `cur` holds the (reversed) run in progress. -/
def tokenizeAux : List Char → List Char → List String
  | [], cur => if cur = [] then [] else [cur.reverse.asString]
  | c :: cs, cur =>
    if isAlnumChar c then tokenizeAux cs (c :: cur)
    else if cur = [] then tokenizeAux cs []
    else cur.reverse.asString :: tokenizeAux cs []

/-- Modelled from the spec: lowercase the text and split it on
non-alphanumeric boundaries, keeping only non-empty tokens. -/
def tokenize (text : String) : List String :=
  tokenizeAux (text.toList.map Char.toLower) []

/-- Modelled from the spec: a token is kept when it is at least 3
characters long and is not a stop word. -/
def validToken (w : String) : Bool :=
  decide (w.length ≥ 3) && !(stopWords.contains w)

/-- Number of occurrences of `w` in the token list `ws`. -/
def countOccs (w : String) (ws : List String) : Nat :=
  (ws.filter (fun v => v = w)).length

/-- The distinct words of `ws` in first-occurrence order. -/
def dedupFirst (ws : List String) : List String :=
  ws.foldl (fun acc w => if w ∈ acc then acc else acc ++ [w]) []

/-- Insert a (word, count) pair into a list sorted descending by count,
after every entry whose count is at least as large (so that processing
words in first-occurrence order breaks ties by first occurrence). -/
def insertByCount (p : String × Nat) : List (String × Nat) → List (String × Nat)
  | [] => [p]
  | q :: qs => if p.2 ≤ q.2 then q :: insertByCount p qs else p :: q :: qs

/-- Stable sort descending by count: insert the pairs one by one, in
order, each one after all entries with a count at least as large. -/
def sortByCountDesc (ps : List (String × Nat)) : List (String × Nat) :=
  ps.foldl (fun acc p => insertByCount p acc) []

/-- Modelled from the spec: `extractKeywords(text, topN)` — lowercase,
split on non-alphanumeric boundaries, discard tokens shorter than 3
characters and stop words, count remaining token frequencies, sort
descending by count with ties broken by first-occurrence order, and
return the first `topN` (word, raw count) pairs. -/
def extractKeywords (text : String) (topN : Nat) : List (String × Nat) :=
  let toks := (tokenize text).filter validToken
  let pairs := (dedupFirst toks).map (fun w => (w, countOccs w toks))
  (sortByCountDesc pairs).take topN

/-! ## Invitation Service (modelled from the spec, §4.4 and §3) -/

/-- Acceptance status of a StudentInvitation: pending or accepted. -/
inductive InvStatus where
  | pending
  | accepted
deriving DecidableEq, Repr

/-- Modelled from the spec: a StudentInvitation record — owning exam,
invitee email, unique invitation code, acceptance status, accepting
student (nullable). -/
structure StudentInvitation where
  examId : Nat
  email : String
  code : String
  status : InvStatus
  acceptedBy : Option Nat
deriving DecidableEq, Repr

/-- The invitation table: the list of StudentInvitation records, in
creation order. -/
abbrev InvStore := List StudentInvitation

/-- The errors the acceptance operation can fail with. -/
inductive AcceptError where
  | InvalidCode
  | AlreadyAccepted
deriving DecidableEq, Repr

/-- Outcome reported per email by the invite operation. -/
inductive InviteOutcome where
  | Created (code : String)
  | AlreadyInvited (code : String)
deriving DecidableEq, Repr

/-- Modelled from the spec: `accept(code, studentId)` — look the code up
in the invitation table; no matching invitation fails with InvalidCode;
a matched invitation already accepted fails with AlreadyAccepted;
otherwise the pending invitation transitions to accepted (an atomic
conditional update keyed on the code) and the owning exam's id (the exam
summary) is returned together with the updated table. -/
def accept (store : InvStore) (code : String) (studentId : Nat) :
    Except AcceptError (Nat × InvStore) :=
  match store.find? (fun inv => inv.code = code) with
  | none => .error .InvalidCode
  | some inv =>
    if inv.status = .accepted then .error .AlreadyAccepted
    else .ok (inv.examId,
      store.map (fun i =>
        if i.code = code then
          { i with status := .accepted, acceptedBy := some studentId }
        else i))

/-- Modelled from the spec: inviting one email to one exam — when an
invitation for (examId, email) already exists the outcome is
AlreadyInvited carrying the existing code and no record is created;
otherwise a StudentInvitation is created in pending state with the
freshly generated code and the outcome is Created. -/
def invite1 (store : InvStore) (examId : Nat) (email : String)
    (freshCode : String) : InviteOutcome × InvStore :=
  match store.find? (fun inv => inv.examId = examId ∧ inv.email = email) with
  | some inv => (.AlreadyInvited inv.code, store)
  | none =>
    (.Created freshCode,
     store ++ [⟨examId, email, freshCode, .pending, none⟩])

/-- Number of invitations held in `store` for the pair (examId, email). -/
def invCount (store : InvStore) (examId : Nat) (email : String) : Nat :=
  (store.filter (fun inv => inv.examId = examId ∧ inv.email = email)).length

/-- An operation on the invitation table: inviting one email (with the
fresh code the service would generate) or accepting by code. -/
inductive InvOp where
  | inviteOp (examId : Nat) (email : String) (freshCode : String)
  | acceptOp (code : String) (studentId : Nat)
deriving DecidableEq, Repr

/-- Apply one operation to the invitation table (the acceptance result
or invite outcome is discarded; only the table evolves). -/
def applyOp (store : InvStore) (op : InvOp) : InvStore :=
  match op with
  | .inviteOp examId email freshCode => (invite1 store examId email freshCode).2
  | .acceptOp code studentId =>
    match accept store code studentId with
    | .ok (_, store2) => store2
    | .error _ => store

/-- Apply a sequence of operations in order. -/
def applyOps (store : InvStore) (ops : List InvOp) : InvStore :=
  ops.foldl applyOp store

/-- Run a sequence of acceptance attempts for the same code, returning
the per-attempt results and the final table.  Each attempt is one atomic
conditional update, so any interleaving of concurrent attempts is one
ordering of this sequence. -/
def runAccepts (store : InvStore) (code : String) :
    List Nat → List (Except AcceptError Nat) × InvStore
  | [] => ([], store)
  | sid :: sids =>
    match accept store code sid with
    | .ok (examId, store2) =>
      let rest := runAccepts store2 code sids
      (.ok examId :: rest.1, rest.2)
    | .error e =>
      let rest := runAccepts store code sids
      (.error e :: rest.1, rest.2)

/-! ## File Store (modelled from the spec, §4.1 and §6) -/

/-- The errors the file store can fail with. -/
inductive StoreError where
  | InvalidFileType
  | FileTooLarge
deriving DecidableEq, Repr

/-- The allowed upload extensions. -/
def allowedExtensions : List String := ["pdf", "docx", "txt"]

/-- Maximum upload size: 16 MiB. -/
def maxFileSize : Nat := 16 * 1024 * 1024

/-- The extension of a filename: the lowercased characters after the
last dot (empty when there is no dot). -/
def extension (filename : String) : String :=
  match (filename.toList.map Char.toLower).reverse.takeWhile (fun c => c ≠ '.') with
  | ext =>
    if ext.length = filename.length then "" else ext.reverse.asString

/-- The state of the file store: the stored files as
(path, byte contents) pairs, in storage order. -/
structure FileStore where
  files : List (String × List Nat)
deriving DecidableEq, Repr

/-- Modelled from the spec: the collision-avoiding stored path,
composed from the exam id, the file kind, a random unique token and the
original filename. -/
def storedPath (examId : Nat) (kind : String) (token : String)
    (filename : String) : String :=
  "uploads/exam_files/" ++ toString examId ++ "_" ++ kind ++ "_" ++
    token ++ "_" ++ filename

/-- Modelled from the spec: `store(examId, kind, filename, bytes)` —
fails with InvalidFileType when the extension is not pdf, docx or txt
(checked first, before any mutation), fails with FileTooLarge when the
bytes exceed 16 MiB; otherwise writes the file under the composed path
and returns it.  The second component is the file store after the call:
on an error it is the unchanged input store. -/
def store (fs : FileStore) (examId : Nat) (kind : String) (token : String)
    (filename : String) (bytes : List Nat) :
    Except StoreError String × FileStore :=
  if allowedExtensions.contains (extension filename) then
    if bytes.length > maxFileSize then (.error .FileTooLarge, fs)
    else
      let path := storedPath examId kind token filename
      (.ok path, ⟨fs.files ++ [(path, bytes)]⟩)
  else (.error .InvalidFileType, fs)

/-! ## Exam page (translated from `frontend/src/pages/Exam.js`) -/

/-- `String.padStart(n, c)` of JavaScript: left-pad with `c` until the
length is at least `n`. -/
def padStart (s : String) (n : Nat) (c : Char) : String :=
  (List.replicate (n - s.length) c).asString ++ s

/-- `formatTime` of `Exam.js`: minutes are `Math.floor(seconds / 60)`,
the remaining seconds `seconds % 60` are rendered left-padded with '0'
to two characters, joined by a colon. -/
def formatTime (seconds : Nat) : String :=
  let minutes := seconds / 60
  let remainingSeconds := seconds % 60
  toString minutes ++ ":" ++ padStart (toString remainingSeconds) 2 '0'

/-- The component state of the exam page that the countdown logic
touches: `timeLeft` (null before the exam loads), `sessionId` (null
until Start Exam is pressed), and the number of `endExam` invocations
performed so far. -/
structure ExamPageState where
  timeLeft : Option Nat
  sessionId : Option Nat
  endExamCalls : Nat
deriving DecidableEq, Repr

/-- The initial component state: both `useState(null)` hooks. -/
def initialExamPage : ExamPageState := ⟨none, none, 0⟩

/-- The timer `useEffect` of `Exam.js`, which runs after `timeLeft`
changes: when `timeLeft > 0` it (re)arms the interval (no state
change); when `timeLeft === 0` it calls `endExam`; when `timeLeft` is
null both JavaScript comparisons are false and nothing happens. -/
def runTimerEffect (s : ExamPageState) : ExamPageState :=
  match s.timeLeft with
  | none => s
  | some t => if t = 0 then { s with endExamCalls := s.endExamCalls + 1 } else s

/-- The events driving the exam page: the exam details arriving (which
sets `timeLeft` to `duration * 60`), the Start Exam response (which
sets `sessionId`), and one interval tick (which decrements a positive
`timeLeft`). -/
inductive PageEvent where
  | loadExam (duration : Nat)
  | startExam (sessionId : Nat)
  | tick
deriving DecidableEq, Repr

/-- One step of the exam page: apply the event's state update and then
the timer effect that reacts to the new `timeLeft`.  A tick exists only
while `timeLeft > 0` (the interval is armed exactly then), so a tick at
0 or at null changes nothing. -/
def pageStep (s : ExamPageState) (e : PageEvent) : ExamPageState :=
  match e with
  | .loadExam d => runTimerEffect { s with timeLeft := some (d * 60) }
  | .startExam sid => { s with sessionId := some sid }
  | .tick =>
    match s.timeLeft with
    | none => s
    | some t =>
      if 0 < t then runTimerEffect { s with timeLeft := some (t - 1) } else s

/-- Run a sequence of page events from a state. -/
def runPage (s : ExamPageState) (es : List PageEvent) : ExamPageState :=
  es.foldl pageStep s

/-! ## Theorems -/

/-- The timer effect never changes `timeLeft`. -/
lemma runTimerEffect_timeLeft (s : ExamPageState) :
    (runTimerEffect s).timeLeft = s.timeLeft := by
  rcases s with ⟨tl, sid, n⟩
  cases tl with
  | none => rfl
  | some t => by_cases h : t = 0 <;> simp [runTimerEffect, h]

/-- The timer effect never changes `sessionId`. -/
lemma runTimerEffect_sessionId (s : ExamPageState) :
    (runTimerEffect s).sessionId = s.sessionId := by
  rcases s with ⟨tl, sid, n⟩
  cases tl with
  | none => rfl
  | some t => by_cases h : t = 0 <;> simp [runTimerEffect, h]

/-- For `r < 60`, left-padding the decimal rendering of `r` to two
characters with '0' prepends a zero exactly when `r < 10`. -/
lemma padStart_mod60 : ∀ r, r < 60 → padStart (toString r) 2 '0' =
    if r < 10 then "0" ++ toString r else toString r := by decide

/-- C9: `formatTime` is a pure function that renders
`floor(s / 60)`, a colon, and `s % 60` left-padded with '0' to at
least 2 characters; in particular `formatTime 65 = "1:05"` and
`formatTime 0 = "0:00"`. -/
theorem formatTime_spec (s : Nat) :
    formatTime s = toString (s / 60) ++ ":" ++
      (if s % 60 < 10 then "0" ++ toString (s % 60) else toString (s % 60)) ∧
    formatTime 65 = "1:05" ∧ formatTime 0 = "0:00" := by
  refine ⟨?_, by decide, by decide⟩
  show toString (s / 60) ++ ":" ++ padStart (toString (s % 60)) 2 '0' = _
  rw [padStart_mod60 (s % 60) (Nat.mod_lt s (by decide))]

/-- C5: `extractKeywords` is pure and deterministic — two invocations
with identical arguments yield identical ordered output sequences. -/
theorem extractKeywords_deterministic (t1 t2 : String) (n1 n2 : Nat)
    (ht : t1 = t2) (hn : n1 = n2) :
    extractKeywords t1 n1 = extractKeywords t2 n2 := by
  rw [ht, hn]

/-- Witness for C5 at a concrete pair of identical invocations. -/
theorem extractKeywords_deterministic_witness :
    ("exam proctor" : String) = "exam proctor" ∧ (3 : Nat) = 3 ∧
    extractKeywords "exam proctor" 3 = extractKeywords "exam proctor" 3 :=
  ⟨rfl, rfl, extractKeywords_deterministic "exam proctor" "exam proctor" 3 3 rfl rfl⟩

/-- C6: when every token of the text is discarded (shorter than 3
characters or a stop word), `extractKeywords` returns the empty
sequence rather than failing. -/
theorem extractKeywords_stopwords_empty (text : String) (n : Nat)
    (h : ∀ w ∈ tokenize text, validToken w = false) :
    extractKeywords text n = [] := by
  unfold extractKeywords
  have hf : (tokenize text).filter validToken = [] := by
    rw [List.filter_eq_nil_iff]
    intro w hw
    simp [h w hw]
  rw [hf]
  simp [dedupFirst, sortByCountDesc]

/-- Witness for C6: `extractKeywords "the a an is" 20` is empty. -/
theorem extractKeywords_stopwords_empty_witness :
    (∀ w ∈ tokenize "the a an is", validToken w = false) ∧
    extractKeywords "the a an is" 20 = [] :=
  ⟨by decide, extractKeywords_stopwords_empty "the a an is" 20 (by decide)⟩

/-- C7: `store` fails with InvalidFileType on a disallowed extension
and the file store is unchanged (no file written); with an allowed
extension, bytes over 16 MiB fail with FileTooLarge, unchanged again;
any oversized upload fails without writing. -/
theorem store_upload_validation (fs : FileStore) (examId : Nat)
    (kind token filename : String) (bytes : List Nat) :
    (allowedExtensions.contains (extension filename) = false →
      store fs examId kind token filename bytes = (.error .InvalidFileType, fs)) ∧
    (allowedExtensions.contains (extension filename) = true →
      bytes.length > maxFileSize →
      store fs examId kind token filename bytes = (.error .FileTooLarge, fs)) ∧
    (bytes.length > maxFileSize →
      ∃ e, store fs examId kind token filename bytes = (.error e, fs)) := by
  refine ⟨fun hext => ?_, fun hext hlen => ?_, fun hlen => ?_⟩
  · have hm : ¬ (extension filename ∈ allowedExtensions) := by simpa using hext
    simp [store, hm]
  · have hm : extension filename ∈ allowedExtensions := by simpa using hext
    simp [store, hm, hlen]
  · by_cases hm : extension filename ∈ allowedExtensions
    · exact ⟨.FileTooLarge, by simp [store, hm, hlen]⟩
    · exact ⟨.InvalidFileType, by simp [store, hm]⟩

/-- Witness for C7 at concrete uploads: a `.exe` upload is rejected as
InvalidFileType with the store unchanged, and an oversized `.txt`
upload is rejected as FileTooLarge with the store unchanged. -/
theorem store_upload_validation_witness :
    (allowedExtensions.contains (extension "virus.exe") = false ∧
     store ⟨[]⟩ 1 "question_paper" "tok" "virus.exe" [0] =
       (.error .InvalidFileType, ⟨[]⟩)) ∧
    (allowedExtensions.contains (extension "paper.txt") = true ∧
     (List.replicate (maxFileSize + 1) 0).length > maxFileSize ∧
     store ⟨[]⟩ 1 "question_paper" "tok" "paper.txt"
       (List.replicate (maxFileSize + 1) 0) = (.error .FileTooLarge, ⟨[]⟩)) :=
  ⟨⟨by decide,
    (store_upload_validation ⟨[]⟩ 1 "question_paper" "tok" "virus.exe" [0]).1
      (by decide)⟩,
   ⟨by decide, by simp,
    (store_upload_validation ⟨[]⟩ 1 "question_paper" "tok" "paper.txt"
        (List.replicate (maxFileSize + 1) 0)).2.1 (by decide) (by simp)⟩⟩

/-- C10: the countdown starts at `duration * 60`, a tick decrements a
positive countdown by one, `endExam` is invoked exactly when the
countdown reaches 0 (in particular never while `timeLeft` is null), and
the run `loadExam 1; tick` invokes `endExam` once with `sessionId`
still null. -/
theorem exam_countdown_spec :
    (∀ s d, (pageStep s (.loadExam d)).timeLeft = some (d * 60)) ∧
    (∀ s t, s.timeLeft = some t → 0 < t →
      (pageStep s .tick).timeLeft = some (t - 1)) ∧
    (∀ s e, (pageStep s e).endExamCalls ≠ s.endExamCalls →
      (pageStep s e).endExamCalls = s.endExamCalls + 1 ∧
      (pageStep s e).timeLeft = some 0) ∧
    (∀ s, s.timeLeft = some 1 →
      (pageStep s .tick).endExamCalls = s.endExamCalls + 1) ∧
    (∀ s sid, s.timeLeft = none → pageStep s .tick = s ∧
      (pageStep s (.startExam sid)).endExamCalls = s.endExamCalls) ∧
    runPage initialExamPage (.loadExam 1 :: List.replicate 60 .tick) =
      ⟨some 0, none, 1⟩ := by
  refine ⟨fun s d => ?_, fun s t ht hpos => ?_, fun s e hne => ?_,
    fun s h1 => ?_, fun s sid hnone => ?_, by decide⟩
  · show (runTimerEffect _).timeLeft = _
    rw [runTimerEffect_timeLeft]
  · show (match s.timeLeft with
      | none => s
      | some t =>
        if 0 < t then runTimerEffect { s with timeLeft := some (t - 1) }
        else s).timeLeft = some (t - 1)
    rw [ht]
    simp only [hpos, if_true]
    rw [runTimerEffect_timeLeft]
  · cases e with
    | loadExam d =>
      by_cases hd : d * 60 = 0
      · constructor
        · show (runTimerEffect { s with timeLeft := some (d * 60) }).endExamCalls = _
          simp [runTimerEffect, hd]
        · show (runTimerEffect { s with timeLeft := some (d * 60) }).timeLeft = _
          rw [runTimerEffect_timeLeft, hd]
      · exfalso
        apply hne
        show (runTimerEffect { s with timeLeft := some (d * 60) }).endExamCalls = _
        simp [runTimerEffect, hd]
    | startExam sid => exact absurd rfl hne
    | tick =>
      rcases htl : s.timeLeft with _ | t
      · exact absurd (by show (match s.timeLeft with
          | none => s
          | some t =>
            if 0 < t then runTimerEffect { s with timeLeft := some (t - 1) }
            else s).endExamCalls = _; rw [htl]) hne
      · by_cases hpos : 0 < t
        · by_cases hz : t - 1 = 0
          · constructor
            · show (match s.timeLeft with
                | none => s
                | some t =>
                  if 0 < t then runTimerEffect { s with timeLeft := some (t - 1) }
                  else s).endExamCalls = _
              rw [htl]
              simp [hpos, runTimerEffect, hz]
            · show (match s.timeLeft with
                | none => s
                | some t =>
                  if 0 < t then runTimerEffect { s with timeLeft := some (t - 1) }
                  else s).timeLeft = _
              rw [htl]
              simp only [hpos, if_true]
              rw [runTimerEffect_timeLeft, hz]
          · exfalso
            apply hne
            show (match s.timeLeft with
              | none => s
              | some t =>
                if 0 < t then runTimerEffect { s with timeLeft := some (t - 1) }
                else s).endExamCalls = _
            rw [htl]
            simp [hpos, runTimerEffect, hz]
        · exact absurd (by show (match s.timeLeft with
            | none => s
            | some t =>
              if 0 < t then runTimerEffect { s with timeLeft := some (t - 1) }
              else s).endExamCalls = _; rw [htl]; simp [hpos]) hne
  · show (match s.timeLeft with
      | none => s
      | some t =>
        if 0 < t then runTimerEffect { s with timeLeft := some (t - 1) }
        else s).endExamCalls = _
    rw [h1]
    simp [runTimerEffect]
  · constructor
    · show (match s.timeLeft with
        | none => s
        | some t =>
          if 0 < t then runTimerEffect { s with timeLeft := some (t - 1) }
          else s) = s
      rw [hnone]
    · rfl

/-- Witness for C10: a tick at `timeLeft = 5` leaves 4 seconds. -/
theorem exam_countdown_witness :
    ((⟨some 5, none, 0⟩ : ExamPageState).timeLeft = some 5) ∧ (0 : Nat) < 5 ∧
    (pageStep ⟨some 5, none, 0⟩ .tick).timeLeft = some 4 :=
  ⟨rfl, by decide, exam_countdown_spec.2.1 ⟨some 5, none, 0⟩ 5 rfl (by decide)⟩

/-! ### Invitation acceptance -/

/-- In a table whose codes are pairwise distinct, two members holding
the same code are the same record. -/
lemma code_unique_mem {st : InvStore} {a b : StudentInvitation}
    (h : st.Pairwise (fun x y => x.code ≠ y.code))
    (ha : a ∈ st) (hb : b ∈ st) (hab : a.code = b.code) : a = b := by
  induction st with
  | nil => cases ha
  | cons x xs ih =>
    rcases List.pairwise_cons.mp h with ⟨hx, hxs⟩
    rcases List.mem_cons.mp ha with rfl | ha2
    · rcases List.mem_cons.mp hb with rfl | hb2
      · rfl
      · exact absurd hab (hx b hb2)
    · rcases List.mem_cons.mp hb with rfl | hb2
      · exact absurd hab.symm (hx a ha2)
      · exact ih hxs ha2 hb2

/-- Looking a code up commutes with the status-flipping map that a
successful acceptance applies (the map preserves every code). -/
lemma find?_code_map (st : InvStore) (code : String) (sid : Nat) :
    (st.map (fun i => if i.code = code then
        { i with status := .accepted, acceptedBy := some sid } else i)).find?
      (fun inv => inv.code = code)
    = (st.find? (fun inv => inv.code = code)).map
        (fun i => { i with status := InvStatus.accepted, acceptedBy := some sid }) := by
  induction st with
  | nil => rfl
  | cons x xs ih =>
    by_cases h : x.code = code
    · simp [List.find?_cons, h]
    · simp [List.find?_cons, h, ih]

/-- A successful acceptance returns the table with every record holding
the code flipped to accepted. -/
lemma accept_ok_store (st : InvStore) (code : String) (sid ex : Nat) (st2 : InvStore)
    (h : accept st code sid = .ok (ex, st2)) :
    st2 = st.map (fun i => if i.code = code then
      { i with status := .accepted, acceptedBy := some sid } else i) := by
  unfold accept at h
  split at h
  · cases h
  · split at h
    · cases h
    · cases h
      rfl

/-- After a successful acceptance, accepting the same code again fails
with AlreadyAccepted. -/
lemma accept_after_accept (st : InvStore) (code : String) (sid sid2 ex : Nat)
    (st2 : InvStore) (h : accept st code sid = .ok (ex, st2)) :
    accept st2 code sid2 = .error .AlreadyAccepted := by
  have hmap := accept_ok_store st code sid ex st2 h
  have hfind : st.find? (fun inv => inv.code = code) ≠ none := by
    intro hn
    unfold accept at h
    rw [hn] at h
    cases h
  rcases hf : st.find? (fun inv => inv.code = code) with _ | inv0
  · exact absurd hf hfind
  · unfold accept
    rw [hmap, find?_code_map, hf]
    simp

/-- Acceptance fails with InvalidCode exactly when no invitation in the
table holds the code. -/
lemma accept_invalid_iff (st : InvStore) (code : String) (sid : Nat) :
    accept st code sid = .error .InvalidCode ↔ ∀ inv ∈ st, inv.code ≠ code := by
  rcases hf : st.find? (fun inv => inv.code = code) with _ | inv0
  · unfold accept
    simp only [hf]
    constructor
    · intro _ inv hm
      have := List.find?_eq_none.mp hf inv hm
      simpa using this
    · intro _
      trivial
  · have hc : inv0.code = code := by
      have := List.find?_some hf
      simpa using this
    have hmem := List.mem_of_find?_eq_some hf
    unfold accept
    simp only [hf]
    constructor
    · intro h
      by_cases hs : inv0.status = .accepted
      · rw [if_pos hs] at h
        cases h
      · rw [if_neg hs] at h
        cases h
    · intro h
      exact absurd hc (h inv0 hmem)

/-- C1: the acceptance contract — InvalidCode exactly when no
invitation matches the code; with globally unique codes, a matching
pending invitation yields the owning exam, a matching accepted
invitation yields AlreadyAccepted; a success is always produced by a
matching pending invitation; and a second accept with the same code
after a success fails with AlreadyAccepted. -/
theorem accept_contract (st : InvStore) (code : String) (sid sid2 : Nat)
    (huniq : st.Pairwise (fun a b => a.code ≠ b.code)) :
    (accept st code sid = .error .InvalidCode ↔ ∀ inv ∈ st, inv.code ≠ code) ∧
    (∀ inv ∈ st, inv.code = code → inv.status = .pending →
      ∃ st2, accept st code sid = .ok (inv.examId, st2)) ∧
    (∀ inv ∈ st, inv.code = code → inv.status = .accepted →
      accept st code sid = .error .AlreadyAccepted) ∧
    (∀ ex st2, accept st code sid = .ok (ex, st2) →
      (∃ inv ∈ st, inv.code = code ∧ inv.status = .pending ∧ ex = inv.examId) ∧
      accept st2 code sid2 = .error .AlreadyAccepted) := by
  refine ⟨accept_invalid_iff st code sid, ?_, ?_, ?_⟩
  · intro inv hmem hcode hpend
    rcases hf : st.find? (fun i => i.code = code) with _ | inv0
    · exfalso
      have := List.find?_eq_none.mp hf inv hmem
      simp [hcode] at this
    · have hc0 : inv0.code = code := by
        have := List.find?_some hf
        simpa using this
      have heq : inv0 = inv :=
        code_unique_mem huniq (List.mem_of_find?_eq_some hf) hmem
          (hc0.trans hcode.symm)
      refine ⟨st.map (fun i => if i.code = code then
        { i with status := .accepted, acceptedBy := some sid } else i), ?_⟩
      unfold accept
      simp only [hf, heq]
      rw [if_neg (by rw [hpend]; intro h; cases h)]
  · intro inv hmem hcode hacc
    rcases hf : st.find? (fun i => i.code = code) with _ | inv0
    · exfalso
      have := List.find?_eq_none.mp hf inv hmem
      simp [hcode] at this
    · have hc0 : inv0.code = code := by
        have := List.find?_some hf
        simpa using this
      have heq : inv0 = inv :=
        code_unique_mem huniq (List.mem_of_find?_eq_some hf) hmem
          (hc0.trans hcode.symm)
      unfold accept
      simp only [hf, heq]
      rw [if_pos hacc]
  · intro ex st2 h
    refine ⟨?_, accept_after_accept st code sid sid2 ex st2 h⟩
    unfold accept at h
    split at h
    · cases h
    next inv0 hf =>
      have hc0 : inv0.code = code := by
        have := List.find?_some hf
        simpa using this
      split at h
      · cases h
      next hs =>
        cases h
        refine ⟨inv0, List.mem_of_find?_eq_some hf, hc0, ?_, rfl⟩
        cases h2 : inv0.status
        · rfl
        · exact absurd h2 hs

/-- Witness for C1 at a one-invitation table: accepting a bogus code
fails with InvalidCode, accepting the pending code succeeds with the
owning exam, and accepting it again fails with AlreadyAccepted. -/
theorem accept_contract_witness :
    ([(⟨7, "s@x.com", "code-1", .pending, none⟩ : StudentInvitation)].Pairwise
      (fun a b => a.code ≠ b.code)) ∧
    accept [⟨7, "s@x.com", "code-1", .pending, none⟩] "bogus-code" 3 =
      .error .InvalidCode ∧
    (∃ st2, accept [⟨7, "s@x.com", "code-1", .pending, none⟩] "code-1" 3 =
      .ok (7, st2)) ∧
    accept [⟨7, "s@x.com", "code-1", .accepted, some 3⟩] "code-1" 4 =
      .error .AlreadyAccepted := by
  have huniq : ([(⟨7, "s@x.com", "code-1", .pending, none⟩ : StudentInvitation)].Pairwise
      (fun a b => a.code ≠ b.code)) := by decide
  refine ⟨huniq, ?_, ?_, ?_⟩
  · exact (accept_contract [⟨7, "s@x.com", "code-1", .pending, none⟩]
      "bogus-code" 3 3 huniq).1.mpr (by decide)
  · exact (accept_contract [⟨7, "s@x.com", "code-1", .pending, none⟩]
      "code-1" 3 3 huniq).2.1 ⟨7, "s@x.com", "code-1", .pending, none⟩
      (by decide) rfl rfl
  · exact (accept_contract [⟨7, "s@x.com", "code-1", .accepted, some 3⟩]
      "code-1" 4 4 (by decide)).2.2.1 ⟨7, "s@x.com", "code-1", .accepted, some 3⟩
      (by decide) rfl rfl

/-- When every acceptance attempt on a table fails with
AlreadyAccepted, a whole run of attempts reports AlreadyAccepted to
each of them and leaves the table unchanged. -/
lemma runAccepts_all_already (st : InvStore) (code : String)
    (h : ∀ sid, accept st code sid = .error .AlreadyAccepted)
    (sids : List Nat) :
    runAccepts st code sids =
      (sids.map (fun _ => .error .AlreadyAccepted), st) := by
  induction sids with
  | nil => rfl
  | cons s ss ih => simp [runAccepts, h s, ih]

/-- C8: duplicate acceptance attempts on the same code — each attempt
an atomic conditional update, concurrency being any ordering of the
attempts — let exactly the first one succeed with the owning exam; all
later attempts observe AlreadyAccepted, and the final table is the one
produced by the single successful transition. -/
theorem concurrent_accept_once (st : InvStore) (code : String)
    (inv0 : StudentInvitation) (s1 : Nat) (sids : List Nat)
    (hfind : st.find? (fun inv => inv.code = code) = some inv0)
    (hpend : inv0.status = .pending) :
    ∃ st2, accept st code s1 = .ok (inv0.examId, st2) ∧
      runAccepts st code (s1 :: sids) =
        (.ok inv0.examId :: sids.map (fun _ => .error .AlreadyAccepted),
          st2) := by
  have hacc : accept st code s1 = .ok (inv0.examId,
      st.map (fun i => if i.code = code then
        { i with status := .accepted, acceptedBy := some s1 } else i)) := by
    unfold accept
    simp only [hfind]
    rw [if_neg (by rw [hpend]; intro h; cases h)]
  refine ⟨_, hacc, ?_⟩
  have hall : ∀ sid, accept (st.map (fun i => if i.code = code then
      { i with status := .accepted, acceptedBy := some s1 } else i)) code sid =
      .error .AlreadyAccepted :=
    fun sid => accept_after_accept st code s1 sid inv0.examId _ hacc
  simp [runAccepts, hacc, runAccepts_all_already _ _ hall sids]

/-- Witness for C8: three racing attempts on one pending code — the
first succeeds, the other two observe AlreadyAccepted. -/
theorem concurrent_accept_once_witness :
    (([(⟨2, "s@x.com", "c7", .pending, none⟩ : StudentInvitation)] :
        InvStore).find? (fun inv => inv.code = "c7") =
      some ⟨2, "s@x.com", "c7", .pending, none⟩) ∧
    ∃ st2, accept [⟨2, "s@x.com", "c7", .pending, none⟩] "c7" 8 =
        .ok (2, st2) ∧
      runAccepts [⟨2, "s@x.com", "c7", .pending, none⟩] "c7" [8, 9, 10] =
        (.ok 2 :: [9, 10].map (fun _ => .error .AlreadyAccepted), st2) :=
  ⟨by decide,
   concurrent_accept_once [⟨2, "s@x.com", "c7", .pending, none⟩] "c7"
     ⟨2, "s@x.com", "c7", .pending, none⟩ 8 [9, 10] (by decide) rfl⟩

/-! ### Invitation state machine -/

/-- Any single operation keeps every existing invitation at its
position, keeps its code, and never moves it out of accepted. -/
lemma applyOp_keeps_existing (st : InvStore) (op : InvOp) (i : Nat)
    (a : StudentInvitation) (ha : st[i]? = some a) :
    ∃ b, (applyOp st op)[i]? = some b ∧ b.code = a.code ∧
      (a.status = .accepted → b.status = .accepted) := by
  have hi : i < st.length := by
    rcases List.getElem?_eq_some_iff.mp ha with ⟨h, _⟩
    exact h
  cases op with
  | inviteOp ex em c =>
    unfold applyOp invite1
    rcases hf : st.find? (fun inv => inv.examId = ex ∧ inv.email = em) with _ | inv0
    · simp only [hf]
      exact ⟨a, by rw [List.getElem?_append_left hi]; exact ha, rfl, fun h => h⟩
    · simp only [hf]
      exact ⟨a, ha, rfl, fun h => h⟩
  | acceptOp code sid =>
    unfold applyOp
    rcases hacc : accept st code sid with e | ⟨ex2, st2⟩
    · simp only [hacc]
      exact ⟨a, ha, rfl, fun h => h⟩
    · simp only [hacc]
      rw [accept_ok_store st code sid ex2 st2 hacc]
      refine ⟨if a.code = code then
          { a with status := .accepted, acceptedBy := some sid } else a,
        ?_, ?_, ?_⟩
      · rw [List.getElem?_map, ha]
        rfl
      · by_cases hc : a.code = code <;> simp [hc]
      · intro hacc2
        by_cases hc : a.code = code <;> simp [hc, hacc2]

/-- Any single operation creates new records (beyond the old length)
only in the pending state. -/
lemma applyOp_new_pending (st : InvStore) (op : InvOp) (i : Nat)
    (b : StudentInvitation) (hnone : st[i]? = none)
    (hb : (applyOp st op)[i]? = some b) : b.status = .pending := by
  have hlen : st.length ≤ i := List.getElem?_eq_none_iff.mp hnone
  cases op with
  | acceptOp code sid =>
    unfold applyOp at hb
    rcases hacc : accept st code sid with e | ⟨ex2, st2⟩
    · simp only [hacc] at hb
      rw [hnone] at hb
      cases hb
    · simp only [hacc] at hb
      rw [accept_ok_store st code sid ex2 st2 hacc, List.getElem?_map,
        hnone] at hb
      cases hb
  | inviteOp ex em c =>
    unfold applyOp invite1 at hb
    rcases hf : st.find? (fun inv => inv.examId = ex ∧ inv.email = em) with _ | inv0
    · simp only [hf] at hb
      rw [List.getElem?_append_right hlen] at hb
      rcases hj : i - st.length with _ | k
      · rw [hj] at hb
        cases hb
        rfl
      · rw [hj] at hb
        cases hb
    · simp only [hf] at hb
      rw [hnone] at hb
      cases hb

/-- Running a trace of operations decomposes over append. -/
lemma applyOps_append (st : InvStore) (l1 l2 : List InvOp) :
    applyOps st (l1 ++ l2) = applyOps (applyOps st l1) l2 := by
  simp [applyOps, List.foldl_append]

/-- An accepted invitation stays accepted, at its position and with its
code, along any trace of operations. -/
lemma applyOps_accepted_stable (st : InvStore) (ops : List InvOp) (i : Nat)
    (a : StudentInvitation) (ha : st[i]? = some a)
    (hst : a.status = .accepted) :
    ∃ b, (applyOps st ops)[i]? = some b ∧ b.code = a.code ∧
      b.status = .accepted := by
  induction ops generalizing st a with
  | nil => exact ⟨a, ha, rfl, hst⟩
  | cons op ops ih =>
    obtain ⟨b, hb, hcode, hmono⟩ := applyOp_keeps_existing st op i a ha
    obtain ⟨c, hc, hcode2, hstat⟩ := ih (applyOp st op) b hb (hmono hst)
    exact ⟨c, hc, hcode2.trans hcode, hstat⟩

/-- C2: the invitation status state machine — every record an operation
creates starts pending (pending is initial); an accepted record stays
accepted under every trace of operations (accepted is terminal, no
reverse transition); and a record whose status ever changed has moved
pending→accepted and keeps that status for the rest of the trace, so it
transitions at most once. -/
theorem invitation_status_machine (st : InvStore) (ops : List InvOp) :
    (∀ (op : InvOp) (i : Nat) (b : StudentInvitation),
      st[i]? = none → (applyOp st op)[i]? = some b →
      b.status = .pending) ∧
    (∀ (i : Nat) (a : StudentInvitation),
      st[i]? = some a → a.status = .accepted →
      ∃ b, (applyOps st ops)[i]? = some b ∧ b.code = a.code ∧
        b.status = .accepted) ∧
    (∀ (l1 l2 : List InvOp) (i : Nat) (a b : StudentInvitation),
      ops = l1 ++ l2 → st[i]? = some a →
      (applyOps st l1)[i]? = some b → a.status ≠ b.status →
      a.status = .pending ∧ b.status = .accepted ∧
      ∃ c, (applyOps st ops)[i]? = some c ∧ c.status = b.status) := by
  refine ⟨fun op i b => applyOp_new_pending st op i b,
    fun i a => applyOps_accepted_stable st ops i a, ?_⟩
  intro l1 l2 i a b hops ha hb hne
  have hb_acc : b.status = .accepted := by
    cases hs : b.status
    · cases ha2 : a.status
      · exact absurd (ha2.trans hs.symm) hne
      · obtain ⟨b2, hb2, _, hb2acc⟩ := applyOps_accepted_stable st l1 i a ha ha2
        rw [hb] at hb2
        cases hb2
        exact hs.symm.trans hb2acc
    · rfl
  have ha_pend : a.status = .pending := by
    cases ha2 : a.status
    · rfl
    · obtain ⟨b2, hb2, _, hb2acc⟩ := applyOps_accepted_stable st l1 i a ha ha2
      rw [hb] at hb2
      cases hb2
      exact absurd (ha2.trans hb2acc.symm) hne
  refine ⟨ha_pend, hb_acc, ?_⟩
  rw [hops, applyOps_append]
  obtain ⟨c, hc, _, hcacc⟩ :=
    applyOps_accepted_stable (applyOps st l1) l2 i b hb hb_acc
  exact ⟨c, hc, hcacc.trans hb_acc.symm⟩

/-- Witness for C2: an accepted invitation survives a trace of an
acceptance and an invite, still accepted. -/
theorem invitation_status_machine_witness :
    (([(⟨1, "e@x.com", "c1", .accepted, some 4⟩ : StudentInvitation)] :
      InvStore)[0]? = some ⟨1, "e@x.com", "c1", .accepted, some 4⟩) ∧
    ∃ b, (applyOps [⟨1, "e@x.com", "c1", .accepted, some 4⟩]
        [.acceptOp "c1" 9, .inviteOp 1 "f@x.com" "c2"])[0]? = some b ∧
      b.code = "c1" ∧ b.status = .accepted :=
  ⟨rfl, (invitation_status_machine [⟨1, "e@x.com", "c1", .accepted, some 4⟩]
      [.acceptOp "c1" 9, .inviteOp 1 "f@x.com" "c2"]).2.1 0
    ⟨1, "e@x.com", "c1", .accepted, some 4⟩ rfl rfl⟩

/-! ### At most one invitation per (exam, email) -/

/-- A successful acceptance's status-flipping map does not change any
(exam, email) invitation count. -/
lemma invCount_accept_map (st : InvStore) (code : String) (sid : Nat)
    (e : Nat) (m : String) :
    invCount (st.map (fun i => if i.code = code then
      { i with status := .accepted, acceptedBy := some sid } else i)) e m =
      invCount st e m := by
  unfold invCount
  rw [List.filter_map, List.length_map]
  refine congrArg List.length (List.filter_congr ?_)
  intro x _
  by_cases hc : x.code = code <;> simp [hc]

/-- Appending one invitation adds one to the count of its own
(exam, email) pair and nothing to any other. -/
lemma invCount_append_single (st : InvStore) (x : StudentInvitation)
    (e : Nat) (m : String) :
    invCount (st ++ [x]) e m =
      invCount st e m + (if x.examId = e ∧ x.email = m then 1 else 0) := by
  unfold invCount
  rw [List.filter_append]
  by_cases hp : x.examId = e ∧ x.email = m
  · simp [hp.1, hp.2]
  · simp [List.filter_cons, hp]

/-- A zero count means no invitation in the table matches the pair. -/
lemma invCount_zero_iff (st : InvStore) (ex : Nat) (em : String) :
    invCount st ex em = 0 ↔
      ∀ inv ∈ st, ¬(inv.examId = ex ∧ inv.email = em) := by
  unfold invCount
  rw [List.length_eq_zero, List.filter_eq_nil_iff]
  simp

/-- A single operation preserves "at most one invitation per
(exam, email)". -/
lemma applyOp_invCount_le (st : InvStore) (op : InvOp)
    (h : ∀ (e : Nat) (m : String), invCount st e m ≤ 1) :
    ∀ (e : Nat) (m : String), invCount (applyOp st op) e m ≤ 1 := by
  intro e m
  cases op with
  | acceptOp code sid =>
    unfold applyOp
    rcases hacc : accept st code sid with e2 | ⟨ex2, st2⟩
    · simp only [hacc]
      exact h e m
    · simp only [hacc]
      rw [accept_ok_store st code sid ex2 st2 hacc, invCount_accept_map]
      exact h e m
  | inviteOp ex em c =>
    unfold applyOp invite1
    rcases hf : st.find? (fun inv => inv.examId = ex ∧ inv.email = em) with _ | inv0
    · simp only [hf]
      rw [invCount_append_single]
      by_cases hp : ex = e ∧ em = m
      · have h0 : invCount st e m = 0 := by
          rw [invCount_zero_iff]
          intro inv hm hpm
          have hnm := List.find?_eq_none.mp hf inv hm
          rcases hp with ⟨rfl, rfl⟩
          simp [hpm.1, hpm.2] at hnm
        rw [h0, if_pos hp]
      · rw [if_neg (by simpa using hp)]
        simpa using h e m
    · simp only [hf]
      exact h e m

/-- Every trace of operations preserves "at most one invitation per
(exam, email)". -/
lemma applyOps_invCount_le (st : InvStore) (ops : List InvOp)
    (h : ∀ (e : Nat) (m : String), invCount st e m ≤ 1) :
    ∀ (e : Nat) (m : String), invCount (applyOps st ops) e m ≤ 1 := by
  induction ops generalizing st with
  | nil => exact h
  | cons op ops ih => exact ih (applyOp st op) (applyOp_invCount_le st op h)

/-- A search that fails on the front of an append continues behind. -/
lemma find?_append_none {α : Type} (p : α → Bool) (l1 l2 : List α)
    (h : l1.find? p = none) : (l1 ++ l2).find? p = l2.find? p := by
  rw [List.find?_append, h]
  rfl

/-- Inviting a fresh (exam, email) pair and then inviting it again:
the count goes to 1 and the second call reports AlreadyInvited with the
first call's code, creating nothing. -/
lemma invite_twice (st : InvStore) (ex : Nat) (em : String) (c1 c2 : String)
    (h0 : invCount st ex em = 0) :
    invCount (invite1 st ex em c1).2 ex em = 1 ∧
    invite1 (invite1 st ex em c1).2 ex em c2 =
      (.AlreadyInvited c1, (invite1 st ex em c1).2) := by
  have hno := (invCount_zero_iff st ex em).mp h0
  have hf : st.find? (fun inv => inv.examId = ex ∧ inv.email = em) = none := by
    rw [List.find?_eq_none]
    intro inv hm
    simpa using hno inv hm
  have h1 : invite1 st ex em c1 =
      (.Created c1, st ++ [⟨ex, em, c1, .pending, none⟩]) := by
    unfold invite1
    simp only [hf]
  have hf2 : (st ++ [(⟨ex, em, c1, .pending, none⟩ : StudentInvitation)]).find?
      (fun inv => inv.examId = ex ∧ inv.email = em) =
      some ⟨ex, em, c1, .pending, none⟩ := by
    rw [find?_append_none _ _ _ hf]
    simp
  constructor
  · rw [h1, invCount_append_single, h0, if_pos ⟨rfl, rfl⟩]
  · rw [h1]
    unfold invite1
    simp only [hf2]

/-- C3: inviting an email that already holds an invitation for the exam
reports AlreadyInvited with the existing code and leaves the table as
it was; the "at most one invitation per (exam, email)" invariant is
preserved by every trace of operations; and inviting the same fresh
email twice leaves the count at exactly 1, the second call returning
the first call's code. -/
theorem invite_at_most_one (st : InvStore) (ex : Nat) (em : String)
    (c1 c2 : String) (ops : List InvOp) :
    ((∃ inv ∈ st, inv.examId = ex ∧ inv.email = em) →
      ∃ inv ∈ st, inv.examId = ex ∧ inv.email = em ∧
        invite1 st ex em c1 = (.AlreadyInvited inv.code, st)) ∧
    ((∀ (e : Nat) (m : String), invCount st e m ≤ 1) →
      ∀ (e : Nat) (m : String), invCount (applyOps st ops) e m ≤ 1) ∧
    (invCount st ex em = 0 →
      invCount (invite1 st ex em c1).2 ex em = 1 ∧
      invite1 (invite1 st ex em c1).2 ex em c2 =
        (.AlreadyInvited c1, (invite1 st ex em c1).2)) := by
  refine ⟨?_, applyOps_invCount_le st ops, invite_twice st ex em c1 c2⟩
  rintro ⟨inv, hm, hp⟩
  rcases hf : st.find? (fun i => i.examId = ex ∧ i.email = em) with _ | inv0
  · exfalso
    have := List.find?_eq_none.mp hf inv hm
    simp [hp.1, hp.2] at this
  · have hp0 : inv0.examId = ex ∧ inv0.email = em := by
      have := List.find?_some hf
      simpa using this
    refine ⟨inv0, List.mem_of_find?_eq_some hf, hp0.1, hp0.2, ?_⟩
    unfold invite1
    simp only [hf]

/-- Witness for C3: from an empty table, inviting the same email twice
for exam 1 leaves exactly one invitation and the second call reports
AlreadyInvited with the first code. -/
theorem invite_at_most_one_witness :
    invCount [] 1 "s@uni.edu" = 0 ∧
    invCount (invite1 [] 1 "s@uni.edu" "K1").2 1 "s@uni.edu" = 1 ∧
    invite1 (invite1 [] 1 "s@uni.edu" "K1").2 1 "s@uni.edu" "K2" =
      (.AlreadyInvited "K1", (invite1 [] 1 "s@uni.edu" "K1").2) :=
  ⟨rfl, (invite_at_most_one [] 1 "s@uni.edu" "K1" "K2" []).2.2 rfl⟩

/-! ### Keyword extraction pipeline -/

/-- Membership in an insertion is membership in the inserted pair or in
the old list. -/
lemma mem_insertByCount (x p : String × Nat) (l : List (String × Nat)) :
    x ∈ insertByCount p l ↔ x = p ∨ x ∈ l := by
  induction l with
  | nil => simp [insertByCount]
  | cons q qs ih =>
    unfold insertByCount
    by_cases h : p.2 ≤ q.2
    · rw [if_pos h]
      simp only [List.mem_cons, ih]
      tauto
    · rw [if_neg h]
      simp only [List.mem_cons]

/-- Inserting into a count-descending list keeps it count-descending. -/
lemma sorted_insertByCount (p : String × Nat) (l : List (String × Nat))
    (h : l.Pairwise (fun a b => b.2 ≤ a.2)) :
    (insertByCount p l).Pairwise (fun a b => b.2 ≤ a.2) := by
  induction l with
  | nil => simp [insertByCount]
  | cons q qs ih =>
    rcases List.pairwise_cons.mp h with ⟨hq, hqs⟩
    unfold insertByCount
    by_cases hpq : p.2 ≤ q.2
    · rw [if_pos hpq, List.pairwise_cons]
      refine ⟨?_, ih hqs⟩
      intro x hx
      rcases (mem_insertByCount x p qs).mp hx with rfl | hx2
      · exact hpq
      · exact hq x hx2
    · rw [if_neg hpq, List.pairwise_cons]
      refine ⟨?_, h⟩
      intro x hx
      rcases List.mem_cons.mp hx with rfl | hx2
      · omega
      · have := hq x hx2
        omega

/-- The insertion fold is count-descending whenever it starts from a
count-descending accumulator. -/
lemma sorted_sortFold (ps : List (String × Nat))
    (init : List (String × Nat))
    (h : init.Pairwise (fun a b => b.2 ≤ a.2)) :
    (ps.foldl (fun acc p => insertByCount p acc) init).Pairwise
      (fun a b => b.2 ≤ a.2) := by
  induction ps generalizing init with
  | nil => exact h
  | cons p ps ih => exact ih _ (sorted_insertByCount p init h)

/-- The sorted output is count-descending. -/
lemma sorted_sortByCountDesc (ps : List (String × Nat)) :
    (sortByCountDesc ps).Pairwise (fun a b => b.2 ≤ a.2) :=
  sorted_sortFold ps [] List.Pairwise.nil

/-- Membership in the insertion fold. -/
lemma mem_sortFold (x : String × Nat) (ps init : List (String × Nat)) :
    x ∈ ps.foldl (fun acc p => insertByCount p acc) init ↔
      x ∈ init ∨ x ∈ ps := by
  induction ps generalizing init with
  | nil => simp
  | cons p ps ih =>
    rw [List.foldl_cons, ih]
    simp only [mem_insertByCount, List.mem_cons]
    tauto

/-- Sorting neither adds nor removes pairs. -/
lemma mem_sortByCountDesc (x : String × Nat) (ps : List (String × Nat)) :
    x ∈ sortByCountDesc ps ↔ x ∈ ps := by
  have h := mem_sortFold x ps []
  simpa using h

/-- Insertion grows the length by one. -/
lemma length_insertByCount (p : String × Nat) (l : List (String × Nat)) :
    (insertByCount p l).length = l.length + 1 := by
  induction l with
  | nil => rfl
  | cons q qs ih =>
    unfold insertByCount
    by_cases h : p.2 ≤ q.2
    · rw [if_pos h]
      simp [ih]
    · rw [if_neg h]
      simp

/-- The insertion fold's length. -/
lemma length_sortFold (ps init : List (String × Nat)) :
    (ps.foldl (fun acc p => insertByCount p acc) init).length =
      init.length + ps.length := by
  induction ps generalizing init with
  | nil => simp
  | cons p ps ih =>
    rw [List.foldl_cons, ih, length_insertByCount, List.length_cons]
    omega

/-- Sorting preserves the length. -/
lemma length_sortByCountDesc (ps : List (String × Nat)) :
    (sortByCountDesc ps).length = ps.length := by
  have h := length_sortFold ps []
  simpa using h

/-- Membership in the first-occurrence dedup fold. -/
lemma mem_dedupFold (x : String) (ws init : List String) :
    x ∈ ws.foldl (fun acc w => if w ∈ acc then acc else acc ++ [w]) init ↔
      x ∈ init ∨ x ∈ ws := by
  induction ws generalizing init with
  | nil => simp
  | cons w ws ih =>
    rw [List.foldl_cons]
    by_cases hw : w ∈ init
    · rw [if_pos hw, ih]
      constructor
      · rintro (h | h)
        · exact Or.inl h
        · exact Or.inr (List.mem_cons_of_mem _ h)
      · rintro (h | h)
        · exact Or.inl h
        · rcases List.mem_cons.mp h with rfl | h2
          · exact Or.inl hw
          · exact Or.inr h2
    · rw [if_neg hw, ih]
      simp only [List.mem_append, List.mem_cons, List.mem_singleton]
      tauto

/-- `dedupFirst` has exactly the members of its input. -/
lemma mem_dedupFirst (x : String) (ws : List String) :
    x ∈ dedupFirst ws ↔ x ∈ ws := by
  have h := mem_dedupFold x ws []
  simpa using h

/-- C4: the keyword pipeline — at most `topN` pairs come back, sorted
descending by count; every returned pair is a kept token of the text
(at least 3 characters, no stop word) paired with its frequency among
the kept tokens; every kept token is returned when `topN` covers the
distinct kept tokens; and the two concrete runs, the second exercising
the first-occurrence tie-break between equal counts. -/
theorem extractKeywords_pipeline :
    (extractKeywords "exam exam proctor proctor proctor keyword" 2 =
      [("proctor", 3), ("exam", 2)]) ∧
    (extractKeywords "bbb aa bbb ccc ddd ccc" 5 =
      [("bbb", 2), ("ccc", 2), ("ddd", 1)]) ∧
    (∀ (text : String) (n : Nat), (extractKeywords text n).length ≤ n) ∧
    (∀ (text : String) (n : Nat),
      (extractKeywords text n).Pairwise (fun p q => q.2 ≤ p.2)) ∧
    (∀ (text : String) (n : Nat) (w : String) (c : Nat),
      (w, c) ∈ extractKeywords text n →
      w ∈ tokenize text ∧ validToken w = true ∧
      c = countOccs w ((tokenize text).filter validToken)) ∧
    (∀ (text : String) (n : Nat) (w : String),
      w ∈ (tokenize text).filter validToken →
      (dedupFirst ((tokenize text).filter validToken)).length ≤ n →
      (w, countOccs w ((tokenize text).filter validToken)) ∈
        extractKeywords text n) := by
  refine ⟨by decide, by decide, fun text n => ?_, fun text n => ?_,
    fun text n w c hmem => ?_, fun text n w hw hlen => ?_⟩
  · show ((sortByCountDesc ((dedupFirst ((tokenize text).filter validToken)).map
        (fun v => (v, countOccs v ((tokenize text).filter validToken))))).take
          n).length ≤ n
    rw [List.length_take]
    exact Nat.min_le_left _ _
  · exact List.Pairwise.sublist (List.take_sublist n _)
      (sorted_sortByCountDesc _)
  · have hmem2 : (w, c) ∈ sortByCountDesc
        ((dedupFirst ((tokenize text).filter validToken)).map
          (fun v => (v, countOccs v ((tokenize text).filter validToken)))) :=
      (List.take_sublist n _).subset hmem
    have hmem3 := (mem_sortByCountDesc _ _).mp hmem2
    obtain ⟨a, ha, hfa⟩ := List.mem_map.mp hmem3
    injection hfa with h1 h2
    subst h1
    have haw : a ∈ (tokenize text).filter validToken :=
      (mem_dedupFirst a _).mp ha
    rcases List.mem_filter.mp haw with ⟨ht, hv⟩
    exact ⟨ht, hv, h2.symm⟩
  · have hd : w ∈ dedupFirst ((tokenize text).filter validToken) :=
      (mem_dedupFirst w _).mpr hw
    have hm : (w, countOccs w ((tokenize text).filter validToken)) ∈
        (dedupFirst ((tokenize text).filter validToken)).map
          (fun v => (v, countOccs v ((tokenize text).filter validToken))) :=
      List.mem_map_of_mem _ hd
    have hs : (w, countOccs w ((tokenize text).filter validToken)) ∈
        sortByCountDesc ((dedupFirst ((tokenize text).filter validToken)).map
          (fun v => (v, countOccs v ((tokenize text).filter validToken)))) :=
      (mem_sortByCountDesc _ _).mpr hm
    have hlen2 : (sortByCountDesc ((dedupFirst ((tokenize text).filter
        validToken)).map (fun v => (v, countOccs v ((tokenize text).filter
          validToken))))).length ≤ n := by
      rw [length_sortByCountDesc, List.length_map]
      exact hlen
    show (w, countOccs w ((tokenize text).filter validToken)) ∈
      (sortByCountDesc ((dedupFirst ((tokenize text).filter validToken)).map
        (fun v => (v, countOccs v ((tokenize text).filter validToken))))).take n
    rw [List.take_of_length_le hlen2]
    exact hs

/-- Witness for C4: every pair returned for the example text is a kept
token with its frequency. -/
theorem extractKeywords_pipeline_witness :
    (("proctor", 3) ∈
      extractKeywords "exam exam proctor proctor proctor keyword" 2) ∧
    ("proctor" ∈ tokenize "exam exam proctor proctor proctor keyword" ∧
      validToken "proctor" = true ∧
      (3 : Nat) = countOccs "proctor"
        ((tokenize "exam exam proctor proctor proctor keyword").filter
          validToken)) :=
  ⟨by decide, extractKeywords_pipeline.2.2.2.2.1
    "exam exam proctor proctor proctor keyword" 2 "proctor" 3 (by decide)⟩

end AIProctoring
